import Mathlib

/-!
Verification of `update_stats.py`, the script that estimates the total
number of code lines across a user's non-fork repositories and persists a
dated record list to `stats.json`.

The embedding is shallow: each Python function is translated into a Lean
definition over explicit data.  Network effects are parameterised by an
environment (`String → String → RepoEnv` mapping owner/name to the outcome
of the two HTTP endpoints), and file-system effects by a `StatsFileState`.
Python exceptions are modelled with `Except String`.
-/

/-- Lexicographic `≤` on lists of naturals, matching Python's string
comparison once strings are mapped to their code points: the empty list is
below everything, and otherwise the heads decide unless they are equal. -/
def lexLe : List Nat → List Nat → Bool
  | [], _ => true
  | _ :: _, [] => false
  | a :: as, b :: bs => if a < b then true else if b < a then false else lexLe as bs

/-- Code points of a string, the key Python compares when sorting
ISO date strings such as "2024-01-31". -/
def dateKey (s : String) : List Nat := s.data.map Char.toNat

/-- Python's `a <= b` on the date strings of two records. -/
def dateLe (a b : String) : Bool := lexLe (dateKey a) (dateKey b)

/-- A JSON value appearing as one weekly sample in the code-frequency
payload: either not a list at all (skipped by the `isinstance` check on
line 147 of `update_stats.py`), or a list of integers. -/
inductive PySample where
  | nonList : PySample
  | ofList : List Int → PySample
deriving DecidableEq, Repr

/-- One iteration of the weekly-sample loop in `compute_total_lines`
(lines 146–151): non-lists and lists shorter than 3 are skipped via
`continue`; a 3-element list is unpacked as `_, additions, deletions` and
`additions - deletions` is added to the running repository total; a longer
list makes that Python unpacking raise `ValueError`, which no caller
catches. -/
def processWeek (repoTotal : Int) (w : PySample) : Except String Int :=
  match w with
  | .nonList => .ok repoTotal
  | .ofList xs =>
    if xs.length < 3 then .ok repoTotal
    else
      match xs with
      | [_, additions, deletions] => .ok (repoTotal + (additions - deletions))
      | _ => .error "ValueError: too many values to unpack (expected 3)"

/-- The weekly loop of `compute_total_lines` run left-to-right from an
accumulator, as the Python `for week in freq` loop does. -/
def computeWeeks (acc : Int) : List PySample → Except String Int
  | [] => .ok acc
  | w :: rest =>
    match processWeek acc w with
    | .ok acc2 => computeWeeks acc2 rest
    | .error e => .error e

/-- The per-repository total obtained from the weekly code-frequency
samples (`repo_total` after the loop on lines 145–151). -/
def computeRepoTotal (freq : List PySample) : Except String Int :=
  computeWeeks 0 freq

/-- Spec-side value of one weekly sample: the spec calls a sample
well-formed when it is an ordered tuple of 3 or more elements, and counts
`additions − deletions` for it; every other sample counts 0. -/
def specSampleValue : PySample → Int
  | .ofList (_ :: additions :: deletions :: _) => additions - deletions
  | _ => 0

/-- Spec-side per-repository sum: the sum of `additions − deletions` over
the well-formed weekly samples, malformed entries ignored. -/
def specWellFormedSum (freq : List PySample) : Int :=
  (freq.map specSampleValue).sum

/-- Decidable shape predicate on one weekly sample: true unless the sample
is a list of more than 3 elements (the shape on which Python's 3-target
unpacking would raise). -/
def sampleUnpackable : PySample → Bool
  | .nonList => true
  | .ofList xs => decide (xs.length ≤ 3)

/-- Sum of the byte counts of a language mapping (`sum(langs.values())`,
line 156). -/
def byteSum (langs : List (String × Int)) : Int :=
  (langs.map Prod.snd).sum

/-- The fallback estimate `byte_sum // 50` of line 157.  Python's `//` is
floor division, which on `Int` is `Int.fdiv`. -/
def fallbackEstimate (langs : List (String × Int)) : Int :=
  Int.fdiv (byteSum langs) 50

/-- Outcome of one HTTP request to the code-frequency endpoint, as
`fetch_repo_code_frequency` distinguishes them: 202 (still computing),
204 (no content), 200 with a body that may or may not be a JSON list, or
any other status code. -/
inductive HttpResponse where
  | status202 : HttpResponse
  | status204 : HttpResponse
  | status200 : Option (List PySample) → HttpResponse
  | statusOther : Nat → HttpResponse

/-- The retry loop of `fetch_repo_code_frequency` (lines 80–109), iterating
over the remaining attempt numbers (Python's `range(1, retries + 1)`).
Returns the number of requests actually made, the list of sleep durations
taken between consecutive attempts, and the final result: `none` models
Python's `None` ("unavailable"), `some []` the empty sample list. -/
def fetchSteps (respond : Nat → HttpResponse) (retries backoff : Nat) :
    List Nat → Nat × List Nat × Option (List PySample)
  | [] => (0, [], none)
  | a :: rest =>
    match respond a with
    | .status202 =>
      if a = retries then (1, [], none)
      else
        let p := fetchSteps respond retries backoff rest
        (p.1 + 1, backoff :: p.2.1, p.2.2)
    | .status204 => (1, [], some [])
    | .statusOther _ => (1, [], none)
    | .status200 body =>
      match body with
      | some data => (1, [], some data)
      | none => (1, [], none)

/-- `fetch_repo_code_frequency` for a service whose reply to attempt `n` is
`respond n`. -/
def fetch_repo_code_frequency (respond : Nat → HttpResponse)
    (retries backoff : Nat) : Nat × List Nat × Option (List PySample) :=
  fetchSteps respond retries backoff (List.range' 1 retries)

/-- Default `retries` parameter of `fetch_repo_code_frequency` (line 70). -/
def defaultRetries : Nat := 5

/-- Default `backoff_seconds` parameter of `fetch_repo_code_frequency`
(line 71). -/
def defaultBackoff : Nat := 8

/-- A repository descriptor as `compute_total_lines` reads it: `full_name`,
`owner.login` and `name`, each defaulting to the empty string when the key
is missing (lines 135–137). -/
structure Repo where
  full_name : String
  owner_login : String
  name : String
deriving DecidableEq, Repr

/-- A repository descriptor the estimation loop does not skip: both the
owner login and the name are non-empty (lines 138–139 skip the rest). -/
def validRepo (r : Repo) : Bool := decide (¬ (r.owner_login = "" ∨ r.name = ""))

/-- What the network yields for one owner/name pair: the overall outcome of
`fetch_repo_code_frequency` (`none` models Python's `None`) and of
`fetch_repo_languages`. -/
structure RepoEnv where
  codeFreq : Option (List PySample)
  languages : Option (List (String × Int))

/-- The kind of a per-repository GitHub request issued by the estimation
loop. -/
inductive ReqKind where
  | codeFrequency : ReqKind
  | languages : ReqKind
deriving DecidableEq, Repr

/-- One processed repository (lines 141–158): the code-frequency statistics
are always requested; when they are unavailable the languages endpoint is
also requested and, if it yields a non-empty mapping (`if langs:`), the
byte-based fallback estimate is used, otherwise the repository total stays
0.  Returns the unclamped repository total and the requests issued. -/
def processRepo (env : String → String → RepoEnv) (r : Repo) :
    Except String (Int × List (ReqKind × String × String)) :=
  match (env r.owner_login r.name).codeFreq with
  | some freq =>
    match computeRepoTotal freq with
    | .ok t => .ok (t, [(.codeFrequency, r.owner_login, r.name)])
    | .error e => .error e
  | none =>
    match (env r.owner_login r.name).languages with
    | some langs =>
      if langs.isEmpty then
        .ok (0, [(.codeFrequency, r.owner_login, r.name),
                 (.languages, r.owner_login, r.name)])
      else
        .ok (fallbackEstimate langs,
             [(.codeFrequency, r.owner_login, r.name),
              (.languages, r.owner_login, r.name)])
    | none =>
      .ok (0, [(.codeFrequency, r.owner_login, r.name),
               (.languages, r.owner_login, r.name)])

/-- The repository loop of `compute_total_lines` (lines 134–161): a
repository with an empty owner login or name is skipped entirely
(lines 138–139); otherwise its total is clamped with `max(repo_total, 0)`
before being added (line 161).  Also accumulates the requests issued. -/
def computeReposAux (env : String → String → RepoEnv) :
    List Repo → Except String (Int × List (ReqKind × String × String))
  | [] => .ok (0, [])
  | r :: rest =>
    if r.owner_login = "" ∨ r.name = "" then computeReposAux env rest
    else
      match processRepo env r with
      | .error e => .error e
      | .ok p =>
        match computeReposAux env rest with
        | .error e => .error e
        | .ok q => .ok (max p.1 0 + q.1, p.2 ++ q.2)

/-- `compute_total_lines` (lines 127–164): the clamped per-repository
estimates are summed and the final total is clamped again with
`max(total_lines, 0)` on line 164. -/
def compute_total_lines (env : String → String → RepoEnv) (repos : List Repo) :
    Except String (Int × List (ReqKind × String × String)) :=
  match computeReposAux env repos with
  | .error e => .error e
  | .ok p => .ok (max p.1 0, p.2)

/-- A persisted record `{date, total_lines}` of `stats.json`. -/
structure Record where
  date : String
  total_lines : Int
deriving DecidableEq, Repr

/-- Python's key comparison for `existing.sort(key=lambda x: x.get("date", ""))`:
records compare by their date strings. -/
def recordLe (a b : Record) : Bool := dateLe a.date b.date

/-- The sort on line 214.  Python's `list.sort` is a stable sort by the
date key; a stable sort's output is uniquely determined by the key order,
so insertion sort reproduces it exactly. -/
def sortRecords (rs : List Record) : List Record :=
  List.insertionSort (fun a b => recordLe a b = true) rs

/-- The overwrite loop of `update_stats` (lines 203–208): the first record
whose date matches gets its `total_lines` replaced and the loop breaks;
the second component reports whether a match was found (`updated`). -/
def overwriteFirst (rs : List Record) (d : String) (t : Int) : List Record × Bool :=
  match rs with
  | [] => ([], false)
  | r :: rest =>
    if r.date = d then ({ date := r.date, total_lines := t } :: rest, true)
    else
      let p := overwriteFirst rest d t
      (r :: p.1, p.2)

/-- The upsert performed by `update_stats` (lines 203–214): overwrite the
matching record if one exists, otherwise append `{date, total_lines}`, then
sort ascending by date. -/
def upsert (rs : List Record) (d : String) (t : Int) : List Record :=
  let p := overwriteFirst rs d t
  sortRecords (if p.2 then p.1 else p.1 ++ [{ date := d, total_lines := t }])

/-- The state of the persisted `stats.json` resource as
`load_existing_stats` distinguishes it: absent, unreadable (`open`/`read`
raises), corrupt (`json.load` raises), valid JSON that is not a list, or a
list of records. -/
inductive StatsFileState where
  | missing : StatsFileState
  | unreadable : StatsFileState
  | corrupt : StatsFileState
  | nonList : StatsFileState
  | listData : List Record → StatsFileState
deriving Repr

/-- `load_existing_stats` (lines 167–181): every non-list state yields the
empty list (the exception handler on lines 179–181 swallows read and parse
failures), and a stored list is returned as is. -/
def load_existing_stats : StatsFileState → List Record
  | .missing => []
  | .unreadable => []
  | .corrupt => []
  | .nonList => []
  | .listData rs => rs

/-- `update_stats` (lines 190–215): with no repositories the run stops
before the store is even loaded (`.ok none`, no mutation); otherwise the
total is computed (propagating any uncaught exception) and the loaded
record list is upserted with today's total (`.ok (some out)` models the
list passed to `save_stats`). -/
def update_stats (env : String → String → RepoEnv) (repos : List Repo)
    (today : String) (file : StatsFileState) :
    Except String (Option (List Record)) :=
  if repos.isEmpty then .ok none
  else
    match compute_total_lines env repos with
    | .error e => .error e
    | .ok p => .ok (some (upsert (load_existing_stats file) today p.1))

/-! ## Order lemmas for the date comparison -/

theorem lexLe_total : ∀ as bs, lexLe as bs = true ∨ lexLe bs as = true := by
  intro as
  induction as with
  | nil => intro bs; left; simp [lexLe]
  | cons a as ih =>
    intro bs
    cases bs with
    | nil => right; simp [lexLe]
    | cons b bs =>
      simp only [lexLe]
      rcases Nat.lt_trichotomy a b with h | h | h
      · left; simp [h]
      · subst h; simpa [lt_irrefl] using ih bs
      · right; simp [h, Nat.not_lt.mpr (Nat.le_of_lt h)]

theorem lexLe_trans :
    ∀ as bs cs, lexLe as bs = true → lexLe bs cs = true → lexLe as cs = true := by
  intro as
  induction as with
  | nil => intros; simp [lexLe]
  | cons a as ih =>
    intro bs cs h1 h2
    cases bs with
    | nil => simp [lexLe] at h1
    | cons b bs =>
      cases cs with
      | nil => simp [lexLe] at h2
      | cons c cs =>
        simp only [lexLe] at h1 h2 ⊢
        by_cases hab : a < b
        · by_cases hbc : b < c
          · simp [Nat.lt_trans hab hbc]
          · simp only [if_neg hbc] at h2
            by_cases hcb : c < b
            · simp [hcb] at h2
            · have hbc2 : b = c := Nat.le_antisymm (Nat.not_lt.mp hcb) (Nat.not_lt.mp hbc)
              subst hbc2
              simp [hab]
        · simp only [if_neg hab] at h1
          by_cases hba : b < a
          · simp [hba] at h1
          · have hab2 : a = b := Nat.le_antisymm (Nat.not_lt.mp hba) (Nat.not_lt.mp hab)
            subst hab2
            simp only [if_neg hab] at h1
            by_cases hac : a < c
            · simp [hac]
            · simp only [if_neg hac] at h2 ⊢
              by_cases hca : c < a
              · simp [hca] at h2
              · simp only [if_neg hca] at h2 ⊢
                exact ih bs cs h1 h2

theorem char_toNat_inj {a b : Char} (h : a.toNat = b.toNat) : a = b :=
  Char.eq_of_val_eq (UInt32.eq_of_toBitVec_eq (BitVec.toNat_injective h))

/-- The code-point comparison agrees with the lexicographic order on the
underlying character lists. -/
theorem lexLe_map_iff : ∀ as bs : List Char,
    lexLe (as.map Char.toNat) (bs.map Char.toNat) = true ↔ ¬ List.Lex (· < ·) bs as := by
  intro as
  induction as with
  | nil =>
    intro bs
    simp [lexLe, List.Lex.not_nil_right]
  | cons a as ih =>
    intro bs
    cases bs with
    | nil =>
      simp only [List.map_cons, List.map_nil, lexLe]
      exact iff_of_false (by simp) (fun hn => hn List.Lex.nil)
    | cons b bs =>
      simp only [List.map_cons, lexLe]
      rcases Nat.lt_trichotomy a.toNat b.toNat with h | h | h
      · rw [if_pos h]
        refine iff_of_true rfl ?_
        intro hlex
        cases hlex with
        | rel hr => exact absurd (show b.toNat < a.toNat from hr) (Nat.lt_asymm h)
        | cons hl => exact Nat.lt_irrefl _ h
      · have hab : a = b := char_toNat_inj h
        subst hab
        rw [if_neg (lt_irrefl _), if_neg (lt_irrefl _)]
        rw [List.Lex.cons_iff]
        exact ih bs
      · rw [if_neg (Nat.not_lt.mpr (Nat.le_of_lt h)), if_pos h]
        refine iff_of_false (by simp) ?_
        exact fun hn => hn (List.Lex.rel (show b < a from h))

/-- `dateLe` is Python's (and Lean's) lexicographic string order. -/
theorem dateLe_iff_le (a b : String) : dateLe a b = true ↔ a ≤ b := by
  rw [String.le_iff_toList_le]
  have h2 : (a.toList ≤ b.toList) ↔ ¬ List.Lex (· < ·) b.toList a.toList := not_lt.symm
  rw [h2]
  exact lexLe_map_iff a.data b.data

theorem recordLe_iff (a b : Record) : recordLe a b = true ↔ a.date ≤ b.date :=
  dateLe_iff_le a.date b.date

instance : IsTotal Record (fun a b => recordLe a b = true) :=
  ⟨fun a b => lexLe_total (dateKey a.date) (dateKey b.date)⟩

instance : IsTrans Record (fun a b => recordLe a b = true) :=
  ⟨fun a b c => lexLe_trans (dateKey a.date) (dateKey b.date) (dateKey c.date)⟩

/-! ## Sorting and overwrite lemmas -/

theorem sortRecords_perm (rs : List Record) : (sortRecords rs).Perm rs :=
  List.perm_insertionSort _ rs

theorem sortRecords_sorted (rs : List Record) :
    List.Sorted (fun a b => recordLe a b = true) (sortRecords rs) :=
  List.sorted_insertionSort _ rs

theorem sortRecords_sorted_le (rs : List Record) :
    List.Sorted (fun a b : Record => a.date ≤ b.date) (sortRecords rs) :=
  (sortRecords_sorted rs).imp (fun h => (recordLe_iff _ _).mp h)

theorem overwriteFirst_length (rs : List Record) (d : String) (t : Int) :
    (overwriteFirst rs d t).1.length = rs.length := by
  induction rs with
  | nil => rfl
  | cons r rest ih =>
    by_cases h : r.date = d <;> simp [overwriteFirst, h, ih]

theorem overwriteFirst_snd_iff (rs : List Record) (d : String) (t : Int) :
    (overwriteFirst rs d t).2 = true ↔ ∃ r ∈ rs, r.date = d := by
  induction rs with
  | nil => simp [overwriteFirst]
  | cons r rest ih =>
    by_cases h : r.date = d <;> simp [overwriteFirst, h, ih]

theorem overwriteFirst_fst_of_no_match (rs : List Record) (d : String) (t : Int)
    (h : (overwriteFirst rs d t).2 = false) : (overwriteFirst rs d t).1 = rs := by
  induction rs with
  | nil => rfl
  | cons r rest ih =>
    by_cases hr : r.date = d
    · simp [overwriteFirst, hr] at h
    · simp only [overwriteFirst, if_neg hr] at h ⊢
      rw [ih h]

theorem overwriteFirst_mem (rs : List Record) (d : String) (t : Int) :
    ∀ x ∈ (overwriteFirst rs d t).1, x ∈ rs ∨ x = { date := d, total_lines := t } := by
  induction rs with
  | nil => intro x hx; simp [overwriteFirst] at hx
  | cons r rest ih =>
    intro x hx
    by_cases hr : r.date = d
    · simp only [overwriteFirst, if_pos hr, List.mem_cons] at hx
      rcases hx with hx | hx
      · right; rw [hx, hr]
      · left; exact List.mem_cons_of_mem _ hx
    · simp only [overwriteFirst, if_neg hr, List.mem_cons] at hx
      rcases hx with hx | hx
      · left; rw [hx]; exact List.mem_cons_self _ _
      · rcases ih x hx with h | h
        · left; exact List.mem_cons_of_mem _ h
        · right; exact h

theorem overwriteFirst_filter_of_match (rs : List Record) (d : String) (t : Int)
    (h : (overwriteFirst rs d t).2 = true) :
    (overwriteFirst rs d t).1.filter (fun r => decide (r.date = d)) =
      { date := d, total_lines := t } ::
        (rs.filter (fun r => decide (r.date = d))).tail := by
  induction rs with
  | nil => simp [overwriteFirst] at h
  | cons r rest ih =>
    by_cases hr : r.date = d
    · simp [overwriteFirst, if_pos hr, List.filter_cons, hr]
    · simp only [overwriteFirst, if_neg hr] at h ⊢
      simp only [List.filter_cons, decide_eq_true_eq, if_neg hr]
      exact ih h

theorem bool_eq_false_of_ne_true {b : Bool} (h : ¬ b = true) : b = false := by
  cases b
  · rfl
  · exact absurd rfl h

theorem upsert_eq_of_match (rs : List Record) (d : String) (t : Int)
    (hm : (overwriteFirst rs d t).2 = true) :
    upsert rs d t = sortRecords (overwriteFirst rs d t).1 := by
  simp [upsert, hm]

theorem upsert_eq_of_no_match (rs : List Record) (d : String) (t : Int)
    (hm : (overwriteFirst rs d t).2 = false) :
    upsert rs d t = sortRecords (rs ++ [{ date := d, total_lines := t }]) := by
  simp [upsert, hm, overwriteFirst_fst_of_no_match rs d t hm]

theorem upsert_sorted (rs : List Record) (d : String) (t : Int) :
    List.Sorted (fun a b : Record => a.date ≤ b.date) (upsert rs d t) := by
  by_cases hm : (overwriteFirst rs d t).2 = true
  · rw [upsert_eq_of_match rs d t hm]; exact sortRecords_sorted_le _
  · rw [upsert_eq_of_no_match rs d t (bool_eq_false_of_ne_true hm)]
    exact sortRecords_sorted_le _

theorem upsert_length_of_match (rs : List Record) (d : String) (t : Int)
    (hm : (overwriteFirst rs d t).2 = true) :
    (upsert rs d t).length = rs.length := by
  rw [upsert_eq_of_match rs d t hm, (sortRecords_perm _).length_eq,
    overwriteFirst_length]

theorem upsert_mem (rs : List Record) (d : String) (t : Int) :
    ∀ x ∈ upsert rs d t, x ∈ rs ∨ x = { date := d, total_lines := t } := by
  intro x hx
  by_cases hm : (overwriteFirst rs d t).2 = true
  · rw [upsert_eq_of_match rs d t hm] at hx
    exact overwriteFirst_mem rs d t x ((sortRecords_perm _).mem_iff.mp hx)
  · rw [upsert_eq_of_no_match rs d t (bool_eq_false_of_ne_true hm)] at hx
    have := (sortRecords_perm _).mem_iff.mp hx
    rcases List.mem_append.mp this with h | h
    · exact Or.inl h
    · exact Or.inr (List.mem_singleton.mp h)

theorem upsert_filter (rs : List Record) (d : String) (t : Int)
    (h : rs.countP (fun r => decide (r.date = d)) ≤ 1) :
    (upsert rs d t).filter (fun r => decide (r.date = d)) =
      [{ date := d, total_lines := t }] := by
  by_cases hm : (overwriteFirst rs d t).2 = true
  · have hex : ∃ r ∈ rs, r.date = d := (overwriteFirst_snd_iff rs d t).mp hm
    have hpos : 0 < rs.countP (fun r => decide (r.date = d)) := by
      rw [List.countP_pos_iff]
      rcases hex with ⟨r, hr, hd⟩
      exact ⟨r, hr, by simpa using hd⟩
    have hone : rs.countP (fun r => decide (r.date = d)) = 1 := le_antisymm h hpos
    have hflen : (rs.filter (fun r => decide (r.date = d))).length = 1 := by
      rw [← List.countP_eq_length_filter]; exact hone
    have htail : (rs.filter (fun r => decide (r.date = d))).tail = [] := by
      cases hfe : rs.filter (fun r => decide (r.date = d)) with
      | nil => rfl
      | cons x xs =>
        rw [hfe] at hflen
        simp only [List.length_cons, Nat.add_eq_one_iff] at hflen
        simp [List.length_eq_zero.mp (by omega : xs.length = 0)]
    have hof := overwriteFirst_filter_of_match rs d t hm
    rw [htail] at hof
    rw [upsert_eq_of_match rs d t hm]
    have hp := (sortRecords_perm (overwriteFirst rs d t).1).filter
      (fun r => decide (r.date = d))
    rw [hof] at hp
    exact List.perm_singleton.mp hp
  · have hnm : (overwriteFirst rs d t).2 = false := bool_eq_false_of_ne_true hm
    have hnoex : ¬ ∃ r ∈ rs, r.date = d := fun hex => by
      rw [(overwriteFirst_snd_iff rs d t).mpr hex] at hnm
      exact Bool.noConfusion hnm
    have hfe : rs.filter (fun r => decide (r.date = d)) = [] := by
      rw [List.filter_eq_nil_iff]
      intro r hr
      simp only [decide_eq_true_eq]
      exact fun hd => hnoex ⟨r, hr, hd⟩
    rw [upsert_eq_of_no_match rs d t hnm]
    have hp := (sortRecords_perm (rs ++ [{ date := d, total_lines := t }])).filter
      (fun r => decide (r.date = d))
    rw [List.filter_append, hfe] at hp
    simp only [List.nil_append, List.filter_cons, decide_eq_true_eq, if_pos rfl,
      List.filter_nil] at hp
    exact List.perm_singleton.mp hp

/-! ## Lemmas about the estimation loop -/

theorem computeWeeks_wellFormed (freq : List PySample)
    (h : ∀ w ∈ freq, sampleUnpackable w = true) :
    ∀ acc, computeWeeks acc freq = .ok (acc + specWellFormedSum freq) := by
  induction freq with
  | nil => intro acc; simp [computeWeeks, specWellFormedSum]
  | cons w rest ih =>
    intro acc
    have hw : sampleUnpackable w = true := h w (List.mem_cons_self _ _)
    have hrest : ∀ x ∈ rest, sampleUnpackable x = true :=
      fun x hx => h x (List.mem_cons_of_mem _ hx)
    have hsum : specWellFormedSum (w :: rest) = specSampleValue w + specWellFormedSum rest := by
      simp [specWellFormedSum]
    rw [hsum]
    cases w with
    | nonList =>
      rw [show computeWeeks acc (PySample.nonList :: rest) = computeWeeks acc rest from rfl,
        ih hrest acc]
      simp [specSampleValue, add_assoc]
    | ofList xs =>
      simp only [sampleUnpackable, decide_eq_true_eq] at hw
      rcases xs with _ | ⟨x0, _ | ⟨x1, _ | ⟨x2, _ | ⟨x3, xs⟩⟩⟩⟩
      · rw [show computeWeeks acc (PySample.ofList [] :: rest) = computeWeeks acc rest from rfl,
          ih hrest acc]
        simp [specSampleValue]
      · rw [show computeWeeks acc (PySample.ofList [x0] :: rest) = computeWeeks acc rest from rfl,
          ih hrest acc]
        simp [specSampleValue]
      · rw [show computeWeeks acc (PySample.ofList [x0, x1] :: rest) =
            computeWeeks acc rest from rfl, ih hrest acc]
        simp [specSampleValue]
      · rw [show computeWeeks acc (PySample.ofList [x0, x1, x2] :: rest) =
            computeWeeks (acc + (x1 - x2)) rest from rfl, ih hrest (acc + (x1 - x2))]
        simp [specSampleValue, add_assoc]
      · exfalso
        simp only [List.length_cons] at hw
        omega

theorem compute_total_lines_nonneg (env : String → String → RepoEnv)
    (repos : List Repo) (p : Int × List (ReqKind × String × String))
    (h : compute_total_lines env repos = .ok p) : 0 ≤ p.1 := by
  unfold compute_total_lines at h
  cases haux : computeReposAux env repos with
  | error e => rw [haux] at h; exact Except.noConfusion h
  | ok q =>
    rw [haux] at h
    have hp : p = (max q.1 0, q.2) := by cases h; rfl
    rw [hp]
    exact le_max_right _ _

theorem processRepo_reqs (env : String → String → RepoEnv) (r : Repo)
    (p : Int × List (ReqKind × String × String))
    (h : processRepo env r = .ok p) :
    ∀ q ∈ p.2, q.2.1 = r.owner_login ∧ q.2.2 = r.name := by
  unfold processRepo at h
  split at h
  · split at h
    · cases h
      intro q hq
      simp only [List.mem_singleton] at hq
      subst hq
      exact ⟨rfl, rfl⟩
    · exact Except.noConfusion h
  · split at h
    · split at h
      · cases h
        intro q hq
        rcases List.mem_cons.mp hq with hq | hq
        · subst hq; exact ⟨rfl, rfl⟩
        · simp only [List.mem_singleton] at hq; subst hq; exact ⟨rfl, rfl⟩
      · cases h
        intro q hq
        rcases List.mem_cons.mp hq with hq | hq
        · subst hq; exact ⟨rfl, rfl⟩
        · simp only [List.mem_singleton] at hq; subst hq; exact ⟨rfl, rfl⟩
    · cases h
      intro q hq
      rcases List.mem_cons.mp hq with hq | hq
      · subst hq; exact ⟨rfl, rfl⟩
      · simp only [List.mem_singleton] at hq; subst hq; exact ⟨rfl, rfl⟩

theorem computeReposAux_filter (env : String → String → RepoEnv) :
    ∀ repos : List Repo,
      computeReposAux env repos = computeReposAux env (repos.filter validRepo) := by
  intro repos
  induction repos with
  | nil => rfl
  | cons r rest ih =>
    by_cases hc : r.owner_login = "" ∨ r.name = ""
    · have hv : validRepo r = false := by simp [validRepo, hc]
      rw [List.filter_cons, hv]
      simp only [if_neg (by simp : ¬ (false = true))]
      simp only [computeReposAux, if_pos hc]
      exact ih
    · have hv : validRepo r = true := by simp [validRepo, hc]
      rw [List.filter_cons, hv]
      simp only [if_pos rfl]
      simp only [computeReposAux, if_neg hc]
      rw [ih]

theorem computeReposAux_reqs (env : String → String → RepoEnv) :
    ∀ (repos : List Repo) (p : Int × List (ReqKind × String × String)),
      computeReposAux env repos = .ok p →
      ∀ q ∈ p.2, q.2.1 ≠ "" ∧ q.2.2 ≠ "" := by
  intro repos
  induction repos with
  | nil =>
    intro p h q hq
    cases h
    simp at hq
  | cons r rest ih =>
    intro p h q hq
    by_cases hc : r.owner_login = "" ∨ r.name = ""
    · rw [computeReposAux, if_pos hc] at h
      exact ih p h q hq
    · rw [computeReposAux, if_neg hc] at h
      split at h
      · exact Except.noConfusion h
      · rename_i pr hpr
        split at h
        · exact Except.noConfusion h
        · rename_i prest haux
          cases h
          rcases List.mem_append.mp hq with hq2 | hq2
          · have h3 := processRepo_reqs env r pr hpr q hq2
            push_neg at hc
            rw [h3.1, h3.2]
            exact hc
          · exact ih prest haux q hq2

/-! ## Claim theorems -/

/-- C1 (amended): for every weekly-sample list in which no sample is a list
of more than 3 elements, the per-repository estimate equals the sum over
the well-formed samples of `additions − deletions`; a single-repository run
adds exactly that sum clamped to be non-negative to the total; and the
sample list `[[t0, 120, -30], [t1, 40, -10]]` yields 200. -/
theorem repo_estimate_spec (freq : List PySample)
    (hshape : ∀ w ∈ freq, sampleUnpackable w = true) :
    computeRepoTotal freq = .ok (specWellFormedSum freq)
    ∧ (∀ (env : String → String → RepoEnv) (r : Repo),
        validRepo r = true →
        (env r.owner_login r.name).codeFreq = some freq →
        compute_total_lines env [r] =
          .ok (max (specWellFormedSum freq) 0,
            [(ReqKind.codeFrequency, r.owner_login, r.name)]))
    ∧ (∀ t0 t1 : Int,
        computeRepoTotal [.ofList [t0, 120, -30], .ofList [t1, 40, -10]] = .ok 200) := by
  have h1 : computeRepoTotal freq = .ok (specWellFormedSum freq) := by
    unfold computeRepoTotal
    rw [computeWeeks_wellFormed freq hshape 0, zero_add]
  refine ⟨h1, ?_, ?_⟩
  · intro env r hv hcf
    have hval : ¬ (r.owner_login = "" ∨ r.name = "") := by
      simpa [validRepo] using hv
    have hpr : processRepo env r =
        .ok (specWellFormedSum freq, [(.codeFrequency, r.owner_login, r.name)]) := by
      unfold processRepo
      rw [hcf]
      simp [h1]
    have haux : computeReposAux env [r] =
        .ok (max (specWellFormedSum freq) 0,
          [(ReqKind.codeFrequency, r.owner_login, r.name)]) := by
      unfold computeReposAux
      rw [if_neg hval, hpr]
      show Except.ok (max (specWellFormedSum freq) 0 + 0, _ ++ []) = _
      rw [add_zero, List.append_nil]
    unfold compute_total_lines
    rw [haux]
    show Except.ok (max (max (specWellFormedSum freq) 0) 0, _) = _
    rw [max_assoc, max_self]
  · intro t0 t1
    show computeWeeks 0 _ = _
    rw [show computeWeeks 0 [PySample.ofList [t0, 120, -30], PySample.ofList [t1, 40, -10]] =
      computeWeeks (0 + ((120 : Int) - (-30))) [PySample.ofList [t1, 40, -10]] from rfl]
    rw [show computeWeeks ((0 : Int) + ((120 : Int) - (-30))) [PySample.ofList [t1, 40, -10]] =
      Except.ok ((0 : Int) + ((120 : Int) - (-30)) + ((40 : Int) - (-10))) from rfl]
    norm_num

/-- C1 counterexample: on the sample list `[[0, 1, 2, 3]]` — whose single
entry is well-formed by the spec's own definition (3 or more elements) —
the code raises instead of producing the clamped well-formed sum. -/
theorem repo_estimate_counterexample :
    computeRepoTotal [PySample.ofList [0, 1, 2, 3]] =
      .error "ValueError: too many values to unpack (expected 3)"
    ∧ computeRepoTotal [PySample.ofList [0, 1, 2, 3]] ≠
        .ok (specWellFormedSum [PySample.ofList [0, 1, 2, 3]]) := by
  constructor
  · rfl
  · intro hcontra
    rw [show computeRepoTotal [PySample.ofList [0, 1, 2, 3]] =
      Except.error "ValueError: too many values to unpack (expected 3)" from rfl] at hcontra
    exact Except.noConfusion hcontra

/-- C1 witness: the spec's own scenario satisfies the shape hypothesis and
the amended estimate equation. -/
theorem repo_estimate_spec_witness :
    (∀ w ∈ [PySample.ofList [0, 120, -30], PySample.ofList [1, 40, -10]],
      sampleUnpackable w = true)
    ∧ computeRepoTotal [PySample.ofList [0, 120, -30], PySample.ofList [1, 40, -10]] =
        .ok (specWellFormedSum [PySample.ofList [0, 120, -30], PySample.ofList [1, 40, -10]]) :=
  ⟨by decide, (repo_estimate_spec _ (by decide)).1⟩

/-- C2 (amended): for every language-byte mapping whose byte counts are all
non-negative (as the GitHub languages endpoint returns them), the fallback
estimate `byte_sum // 50` is non-negative and agrees with division
truncated toward zero; the mapping `{X: 1000, Y: 530}` yields 30.  On
negative totals Python's `//` floors instead of truncating (see the
counterexample). -/
theorem fallback_estimate_spec (langs : List (String × Int))
    (h : ∀ p ∈ langs, 0 ≤ p.2) :
    0 ≤ fallbackEstimate langs
    ∧ fallbackEstimate langs = Int.tdiv (byteSum langs) 50
    ∧ fallbackEstimate [("X", 1000), ("Y", 530)] = 30 := by
  have hsum : 0 ≤ byteSum langs := by
    unfold byteSum
    apply List.sum_nonneg
    intro x hx
    rcases List.mem_map.mp hx with ⟨pq, hpq, rfl⟩
    exact h pq hpq
  refine ⟨?_, ?_, by decide⟩
  · exact Int.fdiv_nonneg hsum (by norm_num)
  · exact Int.fdiv_eq_tdiv hsum (by norm_num)

/-- C2 counterexample: for the mapping `{X: -75}` the code computes
`-75 // 50 = -2` (floor division), while truncation toward zero gives `-1`,
and the fallback estimate is negative. -/
theorem fallback_estimate_counterexample :
    fallbackEstimate [("X", -75)] = -2
    ∧ Int.tdiv (byteSum [("X", -75)]) 50 = -1
    ∧ ¬ 0 ≤ fallbackEstimate [("X", -75)] := by decide

/-- C2 witness: the spec's own mapping has non-negative byte counts and a
non-negative estimate of 30. -/
theorem fallback_estimate_spec_witness :
    (∀ p : String × Int, p ∈ [("X", 1000), ("Y", 530)] → 0 ≤ p.2)
    ∧ 0 ≤ fallbackEstimate [("X", 1000), ("Y", 530)]
    ∧ fallbackEstimate [("X", 1000), ("Y", 530)] = 30 :=
  ⟨by decide, (fallback_estimate_spec [("X", 1000), ("Y", 530)] (by decide)).1,
    (fallback_estimate_spec [("X", 1000), ("Y", 530)] (by decide)).2.2⟩

/-- C3: samples that are not lists, or lists shorter than 3, are indeed
skipped without aborting (second conjunct); but a sample that is a list of
more than 3 elements — well-formed by the spec's "3 or more" definition —
makes the unpacking `_, additions, deletions = week` raise ValueError and
the whole sum aborts, contradicting the claimed "never aborts". -/
theorem malformed_sample_abort :
    computeRepoTotal [PySample.nonList, PySample.ofList [5],
        PySample.ofList [1700000000, 10, -5, 7]] =
      .error "ValueError: too many values to unpack (expected 3)"
    ∧ computeRepoTotal [PySample.nonList, PySample.ofList [5],
        PySample.ofList [0, 9, -1]] = .ok 10 :=
  ⟨rfl, rfl⟩

/-- C4: against a service that answers HTTP 202 on every request,
`fetch_repo_code_frequency` with its default parameters makes exactly 5
requests, sleeps exactly 8 seconds between consecutive attempts (4 gaps),
and returns `None` ("unavailable"), which is distinct from the empty sample
list. -/
theorem fetch_retries_exhausted (respond : Nat → HttpResponse)
    (h : ∀ n, respond n = HttpResponse.status202) :
    fetch_repo_code_frequency respond defaultRetries defaultBackoff =
      (5, [8, 8, 8, 8], (none : Option (List PySample)))
    ∧ (none : Option (List PySample)) ≠ some [] := by
  constructor
  · show fetchSteps respond 5 8 (List.range' 1 5) = (5, [8, 8, 8, 8], none)
    rw [show List.range' 1 5 = [1, 2, 3, 4, 5] from rfl]
    simp [fetchSteps, h]
  · intro hcontra
    exact Option.noConfusion hcontra

/-- C4 witness: the constantly-202 service instantiates the hypothesis. -/
theorem fetch_retries_exhausted_witness :
    fetch_repo_code_frequency (fun _ => HttpResponse.status202)
        defaultRetries defaultBackoff =
      (5, [8, 8, 8, 8], (none : Option (List PySample)))
    ∧ (none : Option (List PySample)) ≠ some [] :=
  fetch_retries_exhausted (fun _ => HttpResponse.status202) (fun _ => rfl)

/-- C5: the upsert always returns a list sorted ascending by the
lexicographic order on the date strings; when a record with the matching
date exists it is overwritten in place (the length is unchanged and the
result is a permutation of the overwritten list, so nothing is appended);
otherwise the result is a permutation of the original list with the new
`{date, total_lines}` record appended. -/
theorem upsert_spec (rs : List Record) (d : String) (t : Int) :
    List.Sorted (fun a b : Record => a.date ≤ b.date) (upsert rs d t)
    ∧ ((∃ r ∈ rs, r.date = d) →
        (upsert rs d t).length = rs.length
        ∧ (upsert rs d t).Perm (overwriteFirst rs d t).1)
    ∧ ((∀ r ∈ rs, r.date ≠ d) →
        (upsert rs d t).Perm (rs ++ [{ date := d, total_lines := t }])) := by
  refine ⟨upsert_sorted rs d t, ?_, ?_⟩
  · intro hex
    have hm : (overwriteFirst rs d t).2 = true := (overwriteFirst_snd_iff rs d t).mpr hex
    refine ⟨upsert_length_of_match rs d t hm, ?_⟩
    rw [upsert_eq_of_match rs d t hm]
    exact sortRecords_perm _
  · intro hno
    have hm : (overwriteFirst rs d t).2 = false := by
      apply bool_eq_false_of_ne_true
      intro htrue
      rcases (overwriteFirst_snd_iff rs d t).mp htrue with ⟨r, hr, hd⟩
      exact hno r hr hd
    rw [upsert_eq_of_no_match rs d t hm]
    exact sortRecords_perm _

/-- C5 witness: upserting an existing date into a concrete two-record list
keeps the length. -/
theorem upsert_spec_witness :
    (∃ r ∈ [({ date := "2024-01-02", total_lines := 5 } : Record),
        { date := "2024-01-01", total_lines := 3 }], r.date = "2024-01-01")
    ∧ (upsert [({ date := "2024-01-02", total_lines := 5 } : Record),
        { date := "2024-01-01", total_lines := 3 }] "2024-01-01" 7).length =
      [({ date := "2024-01-02", total_lines := 5 } : Record),
        { date := "2024-01-01", total_lines := 3 }].length :=
  ⟨by decide,
    ((upsert_spec [{ date := "2024-01-02", total_lines := 5 },
      { date := "2024-01-01", total_lines := 3 }] "2024-01-01" 7).2.1 (by decide)).1⟩

/-- C6: starting from a stored record list whose totals are all
non-negative, any record list a run persists again has only non-negative
totals: the computed total is clamped, so today's record is non-negative,
and all other records are carried over unchanged. -/
theorem persisted_totals_nonneg (env : String → String → RepoEnv)
    (repos : List Repo) (today : String) (file : StatsFileState)
    (out : List Record)
    (hstore : ∀ r ∈ load_existing_stats file, 0 ≤ r.total_lines)
    (hrun : update_stats env repos today file = .ok (some out)) :
    ∀ r ∈ out, 0 ≤ r.total_lines := by
  unfold update_stats at hrun
  by_cases he : repos.isEmpty
  · rw [if_pos he] at hrun
    simp at hrun
  · rw [if_neg he] at hrun
    cases hct : compute_total_lines env repos with
    | error e => rw [hct] at hrun; exact Except.noConfusion hrun
    | ok p =>
      rw [hct] at hrun
      have hout : out = upsert (load_existing_stats file) today p.1 :=
        (Option.some.inj (Except.ok.inj hrun)).symm
      intro r hr
      rw [hout] at hr
      rcases upsert_mem _ _ _ r hr with hmem | hmem
      · exact hstore r hmem
      · rw [hmem]
        exact compute_total_lines_nonneg env repos p hct

/-- C6 witness: a one-repository run over an absent store persists exactly
one record, with total 0. -/
theorem persisted_totals_nonneg_witness :
    (∀ r ∈ load_existing_stats .missing, 0 ≤ r.total_lines)
    ∧ update_stats (fun _ _ => ⟨some [], none⟩)
        [⟨"u/a", "u", "a"⟩] "2025-01-01" .missing =
      .ok (some [{ date := "2025-01-01", total_lines := 0 }])
    ∧ ∀ r ∈ [({ date := "2025-01-01", total_lines := 0 } : Record)], 0 ≤ r.total_lines :=
  ⟨by simp [load_existing_stats], rfl,
    persisted_totals_nonneg (fun _ _ => ⟨some [], none⟩) [⟨"u/a", "u", "a"⟩]
      "2025-01-01" .missing [{ date := "2025-01-01", total_lines := 0 }]
      (by simp [load_existing_stats]) rfl⟩

/-- C7 (amended): on a record list holding at most one record for the given
date, upserting twice with the same date and total leaves exactly one
record for that date, holding that total, and the second application does
not grow the list.  (With pre-existing duplicate dates only the first
duplicate is overwritten — see the counterexample.) -/
theorem upsert_idempotent (rs : List Record) (d : String) (t : Int)
    (h : rs.countP (fun r => decide (r.date = d)) ≤ 1) :
    (upsert (upsert rs d t) d t).filter (fun r => decide (r.date = d)) =
      [{ date := d, total_lines := t }]
    ∧ (upsert (upsert rs d t) d t).length = (upsert rs d t).length := by
  have h1 := upsert_filter rs d t h
  have hcount1 : (upsert rs d t).countP (fun r => decide (r.date = d)) = 1 := by
    rw [List.countP_eq_length_filter, h1]
    rfl
  constructor
  · exact upsert_filter _ d t (by rw [hcount1])
  · have hmem : ({ date := d, total_lines := t } : Record) ∈ upsert rs d t := by
      have hmf : ({ date := d, total_lines := t } : Record) ∈
          (upsert rs d t).filter (fun r => decide (r.date = d)) := by
        rw [h1]
        exact List.mem_singleton_self _
      exact List.mem_of_mem_filter hmf
    have hm : (overwriteFirst (upsert rs d t) d t).2 = true :=
      (overwriteFirst_snd_iff _ d t).mpr ⟨_, hmem, rfl⟩
    exact upsert_length_of_match _ d t hm

/-- C7 counterexample: with two pre-existing records for the same date,
applying the upsert twice still leaves two records for that date (the
second keeps its stale total), so "exactly one record for that date" fails
for this record list. -/
theorem upsert_idempotent_counterexample :
    (upsert (upsert [{ date := "2024-01-01", total_lines := 1 },
        { date := "2024-01-01", total_lines := 2 }] "2024-01-01" 5) "2024-01-01" 5).countP
      (fun r => decide (r.date = "2024-01-01")) = 2
    ∧ upsert (upsert [{ date := "2024-01-01", total_lines := 1 },
        { date := "2024-01-01", total_lines := 2 }] "2024-01-01" 5) "2024-01-01" 5 =
      [{ date := "2024-01-01", total_lines := 5 },
        { date := "2024-01-01", total_lines := 2 }] := by decide

/-- C7 witness: on the empty record list the double upsert leaves exactly
one record for the date. -/
theorem upsert_idempotent_witness :
    ([] : List Record).countP (fun r => decide (r.date = "2024-03-01")) ≤ 1
    ∧ (upsert (upsert ([] : List Record) "2024-03-01" 4) "2024-03-01" 4).filter
        (fun r => decide (r.date = "2024-03-01")) =
      [{ date := "2024-03-01", total_lines := 4 }] :=
  ⟨by decide, (upsert_idempotent [] "2024-03-01" 4 (by decide)).1⟩

/-- C8: whenever the stats resource is not a stored list — absent,
unreadable, corrupt, or valid JSON of the wrong shape — `load_existing_stats`
returns the empty list instead of failing. -/
theorem load_returns_empty_on_invalid (s : StatsFileState)
    (h : ∀ rs, s ≠ StatsFileState.listData rs) :
    load_existing_stats s = [] := by
  cases s with
  | missing => rfl
  | unreadable => rfl
  | corrupt => rfl
  | nonList => rfl
  | listData rs => exact absurd rfl (h rs)

/-- C8 witness: the corrupt-store state is not a stored list and loads as
the empty list. -/
theorem load_returns_empty_on_invalid_witness :
    (∀ rs, StatsFileState.corrupt ≠ StatsFileState.listData rs)
    ∧ load_existing_stats StatsFileState.corrupt = [] :=
  ⟨fun _ h => StatsFileState.noConfusion h,
    load_returns_empty_on_invalid StatsFileState.corrupt
      (fun _ h => StatsFileState.noConfusion h)⟩

/-- C9 (amended): a run ends with no store access at all exactly when the
repository list is empty; every run over a non-empty repository list either
persists a record list or aborts with an uncaught exception (see the
counterexample for such an abort). -/
theorem empty_repos_only_clean_stop (env : String → String → RepoEnv)
    (repos : List Repo) (today : String) (file : StatsFileState) :
    update_stats env repos today file = .ok none ↔ repos = [] := by
  constructor
  · intro h
    by_cases he : repos.isEmpty
    · exact List.isEmpty_iff.mp he
    · unfold update_stats at h
      rw [if_neg he] at h
      cases hct : compute_total_lines env repos with
      | error e => rw [hct] at h; exact Except.noConfusion h
      | ok p =>
        rw [hct] at h
        exact Option.noConfusion (Except.ok.inj h)
  · intro h
    subst h
    rfl

/-- C9 counterexample: a run over one repository whose weekly data holds a
4-element sample aborts with an uncaught ValueError, so the empty
repository list is not the only condition that aborts the overall run. -/
theorem nonempty_abort_counterexample :
    update_stats (fun _ _ => ⟨some [PySample.ofList [0, 7, -2, 5]], none⟩)
        [⟨"u/a", "u", "a"⟩] "2025-06-01" StatsFileState.missing =
      .error "ValueError: too many values to unpack (expected 3)"
    ∧ ([(⟨"u/a", "u", "a"⟩ : Repo)] : List Repo) ≠ [] :=
  ⟨rfl, by decide⟩

/-- C10: repositories with an empty owner login or name are skipped
entirely: the total and the issued requests are the same as if those
repositories were removed from the list, and every request that is issued
names a non-empty owner and a non-empty repository name. -/
theorem skip_unnamed_repos (env : String → String → RepoEnv) (repos : List Repo) :
    compute_total_lines env repos = compute_total_lines env (repos.filter validRepo)
    ∧ (∀ p, compute_total_lines env repos = .ok p →
        ∀ q ∈ p.2, q.2.1 ≠ "" ∧ q.2.2 ≠ "") := by
  constructor
  · unfold compute_total_lines
    rw [computeReposAux_filter env repos]
  · intro p hp q hq
    unfold compute_total_lines at hp
    cases haux : computeReposAux env repos with
    | error e => rw [haux] at hp; exact Except.noConfusion hp
    | ok pr =>
      rw [haux] at hp
      have hp2 : p = (max pr.1 0, pr.2) := by cases hp; rfl
      subst hp2
      exact computeReposAux_reqs env repos pr haux q hq

/-- C10 witness: a list holding one nameless descriptor and one valid one
gives the same result as the filtered list, and the single request issued
names the valid repository. -/
theorem skip_unnamed_repos_witness :
    compute_total_lines (fun _ _ => ⟨some [], none⟩)
        [⟨"", "", ""⟩, ⟨"u/a", "u", "a"⟩] =
      compute_total_lines (fun _ _ => ⟨some [], none⟩)
        (([⟨"", "", ""⟩, ⟨"u/a", "u", "a"⟩] : List Repo).filter validRepo)
    ∧ ∀ q ∈ [(ReqKind.codeFrequency, "u", "a")], q.2.1 ≠ "" ∧ q.2.2 ≠ "" :=
  ⟨(skip_unnamed_repos (fun _ _ => ⟨some [], none⟩) [⟨"", "", ""⟩, ⟨"u/a", "u", "a"⟩]).1,
    (skip_unnamed_repos (fun _ _ => ⟨some [], none⟩) [⟨"", "", ""⟩, ⟨"u/a", "u", "a"⟩]).2
      (0, [(ReqKind.codeFrequency, "u", "a")]) rfl⟩
